import Mathlib

/-!
Verification of the MetaCurriculum coordinator
(src/ml-agents/mlagents/trainers/meta_curriculum.py).

Python dicts are embedded as insertion-ordered association lists over
String keys.  A raised KeyError is embedded as a failing Option / Except
result.  The Curriculum collaborator (mlagents/trainers/curriculum.py) is
not part of the analysed source; it is modelled from the spec as an
abstract structure carrying exactly the interface the coordinator uses.
-/

set_option autoImplicit false

namespace MetaCurr

/-- Python dict lookup, d[k]: first (= unique, for dict-shaped lists)
binding of the key; none embeds a raised KeyError. -/
def dictLookup {α : Type} : List (String × α) → String → Option α
  | [], _ => none
  | (k', v) :: rest, k => if k' = k then some v else dictLookup rest k

/-- Python dict assignment, d[k] = v: replace the value in place if the key
is present, otherwise append the new binding at the end. -/
def dictInsert {α : Type} : List (String × α) → String → α → List (String × α)
  | [], k, v => [(k, v)]
  | (k', v') :: rest, k, v =>
    if k' = k then (k', v) :: rest else (k', v') :: dictInsert rest k v

/-- Python membership test, k in d. -/
def dictMem {α : Type} (d : List (String × α)) (k : String) : Bool :=
  (dictLookup d k).isSome

/-- Python dict.update(e): assign every binding of e into d, in order. -/
def dictUpdate {α : Type} (d e : List (String × α)) : List (String × α) :=
  e.foldl (fun acc p => dictInsert acc p.1 p.2) d

/-- Modelled from the spec: the external Curriculum collaborator
(mlagents.trainers.curriculum is not under the analysed source).  It
exposes a configuration mapping, a mutable lesson number, a minimum
lesson length, and an increment decision.  The decision procedure is kept
abstract as a function field from the measure value and the current
lesson number to the new lesson number and the advanced/not-advanced
boolean. -/
structure Curriculum where
  config : List (String × Int)
  lesson_num : Int
  min_lesson_length : Int
  inc : Int → Int → Int × Bool

/-- Modelled from the spec: Curriculum.get_config() is a pure read of the
current configuration mapping. -/
def Curriculum.get_config (c : Curriculum) : List (String × Int) :=
  c.config

/-- Modelled from the spec: Curriculum.increment_lesson(measure) may
mutate the internal lesson number and returns whether the lesson
advanced.  Both outputs come from the abstract decision field. -/
def Curriculum.increment_lesson (c : Curriculum) (measure : Int) :
    Curriculum × Bool :=
  let r := c.inc measure c.lesson_num
  ({ c with lesson_num := r.1 }, r.2)

/-- The coordinator state: the private _brains_to_curricula dict. -/
structure MetaCurriculum where
  brains_to_curricula : List (String × Curriculum)

/-- The construction loop of MetaCurriculum.__init__: store each
curriculum under its brain name, count a logger.warning for each
curriculum whose config keys intersect the keys already seen, and union
the keys into the running set (membership in the used list embeds the
Python set). -/
def initLoop :
    List (String × Curriculum) → List String → List (String × Curriculum) →
    List (String × Curriculum) × Nat
  | [], _, acc => (acc, 0)
  | (brain, c) :: rest, used, acc =>
    let keys := (c.get_config).map Prod.fst
    let w : Nat := if keys.any (fun k => used.contains k) then 1 else 0
    let r := initLoop rest (used ++ keys) (dictInsert acc brain c)
    (r.1, w + r.2)

/-- The number of collision warnings MetaCurriculum.__init__ logs for a
given input dict of curricula. -/
def initWarnings (curricula : List (String × Curriculum)) : Nat :=
  (initLoop curricula [] []).2

/-- MetaCurriculum.__init__ : the stored coordinator.  Construction is a
total function: it never raises. -/
def init (curricula : List (String × Curriculum)) : MetaCurriculum :=
  ⟨(initLoop curricula [] []).1⟩

/-- The lesson_nums property (getter): brain name to its curriculum's
current lesson number. -/
def MetaCurriculum.lesson_nums (mc : MetaCurriculum) : List (String × Int) :=
  mc.brains_to_curricula.map (fun p => (p.1, p.2.lesson_num))

/-- The loop of the lesson_nums setter: for each given (brain, lesson)
pair, index into the dict (KeyError if absent) and overwrite that
curriculum's lesson number.  An error result carries the partially
mutated dict, exactly the state Python leaves behind when the KeyError
propagates. -/
def setLessonNumsLoop :
    List (String × Curriculum) → List (String × Int) →
    Except (List (String × Curriculum)) (List (String × Curriculum))
  | d, [] => .ok d
  | d, (brain, lesson) :: rest =>
    match dictLookup d brain with
    | none => .error d
    | some c => setLessonNumsLoop (dictInsert d brain { c with lesson_num := lesson }) rest

/-- The lesson_nums setter. -/
def MetaCurriculum.set_lesson_nums (mc : MetaCurriculum)
    (lesson_nums : List (String × Int)) :
    Except MetaCurriculum MetaCurriculum :=
  match setLessonNumsLoop mc.brains_to_curricula lesson_nums with
  | .ok d => .ok ⟨d⟩
  | .error d => .error ⟨d⟩

/-- MetaCurriculum._lesson_ready_to_increment: false for an unknown
brain, otherwise reward_buff_size >= min_lesson_length. -/
def MetaCurriculum.lesson_ready_to_increment (mc : MetaCurriculum)
    (brain : String) (reward_buff_size : Int) : Bool :=
  match dictLookup mc.brains_to_curricula brain with
  | none => false
  | some c => decide (c.min_lesson_length ≤ reward_buff_size)

/-- The buffered branch of increment_lessons: walk reward_buff_sizes; for
each ready brain, read its measure value (KeyError = none if absent),
call increment_lesson on its curriculum, and record the boolean under the
brain name. -/
def incrementLoopBuffered :
    MetaCurriculum → List (String × Int) → List (String × Int) →
    List (String × Bool) → Option (MetaCurriculum × List (String × Bool))
  | mc, [], _, ret => some (mc, ret)
  | mc, (brain, buff_size) :: rest, measure_vals, ret =>
    if mc.lesson_ready_to_increment brain buff_size then
      match dictLookup measure_vals brain with
      | none => none
      | some measure_val =>
        match dictLookup mc.brains_to_curricula brain with
        | none => none
        | some c =>
          let r := c.increment_lesson measure_val
          incrementLoopBuffered ⟨dictInsert mc.brains_to_curricula brain r.1⟩
            rest measure_vals (dictInsert ret brain r.2)
    else
      incrementLoopBuffered mc rest measure_vals ret

/-- The unbuffered branch of increment_lessons: walk measure_vals and
increment every named brain's curriculum (KeyError = none for an unknown
brain), recording every boolean. -/
def incrementLoopAll :
    MetaCurriculum → List (String × Int) → List (String × Bool) →
    Option (MetaCurriculum × List (String × Bool))
  | mc, [], ret => some (mc, ret)
  | mc, (brain, measure_val) :: rest, ret =>
    match dictLookup mc.brains_to_curricula brain with
    | none => none
    | some c =>
      let r := c.increment_lesson measure_val
      incrementLoopAll ⟨dictInsert mc.brains_to_curricula brain r.1⟩
        rest (dictInsert ret brain r.2)

/-- MetaCurriculum.increment_lessons.  The Python guard is the truthiness
test if reward_buff_sizes: an absent (None) argument and a supplied empty
dict both take the unbuffered branch.  The result pairs the mutated
coordinator with the returned brain-to-advanced dict; none embeds a
raised KeyError. -/
def MetaCurriculum.increment_lessons (mc : MetaCurriculum)
    (measure_vals : List (String × Int))
    (reward_buff_sizes : Option (List (String × Int))) :
    Option (MetaCurriculum × List (String × Bool)) :=
  match reward_buff_sizes with
  | some rbs =>
    if rbs.isEmpty then incrementLoopAll mc measure_vals []
    else incrementLoopBuffered mc rbs measure_vals []
  | none => incrementLoopAll mc measure_vals []

/-- MetaCurriculum.set_all_curricula_to_lesson_num : every curriculum's
lesson number is overwritten with the given value. -/
def MetaCurriculum.set_all_curricula_to_lesson_num (mc : MetaCurriculum)
    (lesson_num : Int) : MetaCurriculum :=
  ⟨mc.brains_to_curricula.map (fun p => (p.1, { p.2 with lesson_num := lesson_num }))⟩

/-- MetaCurriculum.get_config : dict.update of every curriculum's config
into one dict, in iteration order. -/
def MetaCurriculum.get_config (mc : MetaCurriculum) : List (String × Int) :=
  mc.brains_to_curricula.foldl (fun acc p => dictUpdate acc p.2.get_config) []

/-- Spec-side description of last-writer-wins: the value a key gets from
the last curriculum (in iteration order) whose config carries it. -/
def lastConfigLookup : List (String × Curriculum) → String → Option Int
  | [], _ => none
  | p :: rest, k =>
    match lastConfigLookup rest k with
    | some v => some v
    | none => dictLookup p.2.get_config k

/-- os.path.splitext restricted to bare file names (no path separator):
split at the last dot, unless every character before that dot is itself a
dot, in which case the extension is empty. -/
def splitext (s : String) : String × String :=
  let cs := s.toList
  let dotIdx := (List.range cs.length).foldl
    (fun acc i => if cs.getD i ' ' = '.' then some i else acc) none
  match dotIdx with
  | none => (s, "")
  | some i =>
    if (List.range i).any (fun j => cs.getD j ' ' ≠ '.') then
      (String.mk (cs.take i), String.mk (cs.drop i))
    else
      (s, "")

/-- Python str.lower, on the ASCII alphabet the extension check uses. -/
def strLower (s : String) : String :=
  String.mk (s.toList.map Char.toLower)

/-- The result of os.listdir: either the path was not a directory
(NotADirectoryError) or the list of file names in it. -/
inductive DirListing where
  | notADirectory : DirListing
  | files : List String → DirListing

/-- One iteration of the from_directory loop over a listed file name: a
name whose extension does not lower to .json is skipped (continue),
otherwise its base name keys the loaded curriculum in the accumulating
dict. -/
def dirStep (load : String → Curriculum) (acc : List (String × Curriculum))
    (curriculum_filename : String) : List (String × Curriculum) :=
  if strLower (splitext curriculum_filename).2 = ".json" then
    dictInsert acc (splitext curriculum_filename).1 (load curriculum_filename)
  else acc

/-- The curricula dict from_directory accumulates over the directory
listing. -/
def dirCurricula (load : String → Curriculum) (names : List String) :
    List (String × Curriculum) :=
  names.foldl (dirStep load) []

/-- MetaCurriculum.from_directory.  File-system access is embedded as the
DirListing input; Curriculum.load_curriculum_file followed by the
Curriculum constructor (external code, not under the analysed source) is
the abstract load argument from file name to curriculum.  A
NotADirectoryError from os.listdir becomes the MetaCurriculumError
message; the error carries no coordinator. -/
def from_directory (folder_path : String) (listing : DirListing)
    (load : String → Curriculum) : Except String MetaCurriculum :=
  match listing with
  | .notADirectory =>
    .error (folder_path ++ " is not a directory. Refer to the ML-Agents curriculum learning docs.")
  | .files names =>
    .ok (init (dirCurricula load names))

/-- Step-wise restatement of the construction loop's collision check: no
curriculum's config keys meet the keys accumulated before it. -/
def NoCollide : List (String × Curriculum) → List String → Prop
  | [], _ => True
  | (_, c) :: rest, used =>
    (∀ k ∈ c.get_config.map Prod.fst, k ∉ used)
    ∧ NoCollide rest (used ++ c.get_config.map Prod.fst)

/-- A concrete curriculum for witnesses: advances exactly on a measure of
at least 5, minimum lesson length 10. -/
def aCur : Curriculum := ⟨[("x", 1)], 0, 10, fun m l => (l + 1, decide (5 ≤ m))⟩

/-- A concrete curriculum for witnesses: never advances, minimum lesson
length 2. -/
def bCur : Curriculum := ⟨[("y", 2)], 4, 2, fun _ l => (l, false)⟩

/-- A two-brain coordinator used by witnesses. -/
def mcW : MetaCurriculum := ⟨[("A", aCur), ("B", bCur)]⟩

/-- A concrete single-brain coordinator used by witnesses. -/
def mcA : MetaCurriculum :=
  ⟨[("A", ⟨[("x", 1)], 0, 10, fun m l => (l + 1, decide (5 ≤ m))⟩)]⟩

/-- The concrete post-state of the C1 witness run: brain A advanced from
lesson 0 to 1, brain B was not ready, and the returned dict maps A to
true. -/
def pW : MetaCurriculum × List (String × Bool) :=
  (⟨[("A", ⟨[("x", 1)], 1, 10, fun m l => (l + 1, decide (5 ≤ m))⟩), ("B", bCur)]⟩,
   [("A", true)])

/-! Basic association-list facts used throughout. -/

theorem dictLookup_dictInsert {α : Type} (d : List (String × α)) (k k' : String) (v : α) :
    dictLookup (dictInsert d k v) k' = if k = k' then some v else dictLookup d k' := by
  induction d with
  | nil =>
    simp [dictInsert, dictLookup]
  | cons p rest ih =>
    obtain ⟨k₀, v₀⟩ := p
    by_cases h0 : k₀ = k
    · subst h0
      simp only [dictInsert, if_pos rfl, dictLookup]
      by_cases h1 : k₀ = k' <;> simp [dictLookup, h1]
    · simp only [dictInsert, if_neg h0, dictLookup]
      by_cases h1 : k₀ = k'
      · have hk : k ≠ k' := fun he => h0 (h1.trans he.symm)
        simp [h1, hk]
      · simp [h1, ih]

theorem keys_dictInsert_of_mem {α : Type} (d : List (String × α)) (k : String) (v : α)
    (h : dictMem d k = true) :
    (dictInsert d k v).map Prod.fst = d.map Prod.fst := by
  induction d with
  | nil => simp [dictMem, dictLookup] at h
  | cons p rest ih =>
    obtain ⟨k₀, v₀⟩ := p
    by_cases h0 : k₀ = k
    · simp [dictInsert, h0]
    · simp only [dictMem, dictLookup, if_neg h0] at h
      simp [dictInsert, h0, ih h]

theorem dictInsert_of_not_mem {α : Type} (d : List (String × α)) (k : String) (v : α)
    (h : dictMem d k = false) :
    dictInsert d k v = d ++ [(k, v)] := by
  induction d with
  | nil => simp [dictInsert]
  | cons p rest ih =>
    obtain ⟨k₀, v₀⟩ := p
    by_cases h0 : k₀ = k
    · simp [dictMem, dictLookup, h0] at h
    · simp only [dictMem, dictLookup, if_neg h0] at h
      simp [dictInsert, h0, ih h]

theorem dictMem_iff_mem_keys {α : Type} (d : List (String × α)) (k : String) :
    dictMem d k = true ↔ k ∈ d.map Prod.fst := by
  induction d with
  | nil => simp [dictMem, dictLookup]
  | cons p rest ih =>
    obtain ⟨k₀, v₀⟩ := p
    by_cases h0 : k₀ = k
    · subst h0; simp [dictMem, dictLookup]
    · have hk : ¬ k = k₀ := fun h => h0 h.symm
      simp only [dictMem, dictLookup, if_neg h0, List.map_cons, List.mem_cons]
      rw [← ih]
      simp [dictMem, hk]

theorem dictLookup_eq_some_of_mem {α : Type} (d : List (String × α)) (k : String) (v : α)
    (hnd : (d.map Prod.fst).Nodup) (hmem : (k, v) ∈ d) :
    dictLookup d k = some v := by
  induction d with
  | nil => simp at hmem
  | cons p rest ih =>
    obtain ⟨k₀, v₀⟩ := p
    simp only [List.map_cons, List.nodup_cons] at hnd
    rcases List.mem_cons.mp hmem with h | h
    · obtain ⟨h1, h2⟩ := Prod.mk.injEq .. ▸ h.symm
      simp [dictLookup, h1.symm, h2]
    · have hk : k₀ ≠ k := by
        intro he
        exact hnd.1 (he ▸ (List.mem_map.mpr ⟨(k, v), h, rfl⟩))
      simp [dictLookup, hk, ih hnd.2 h]

theorem dictLookup_eq_none_iff {α : Type} (d : List (String × α)) (k : String) :
    dictLookup d k = none ↔ k ∉ d.map Prod.fst := by
  rw [← dictMem_iff_mem_keys]
  unfold dictMem
  cases dictLookup d k <;> simp

/-! ### The unbuffered branch of increment_lessons. -/

/-- Running the unbuffered loop with every named brain owned: it
succeeds, appends exactly the measure_vals keys to the result dict,
leaves other result keys alone, and records for each brain the boolean
its own (pre-call) curriculum returns on its measure value. -/
theorem incrementLoopAll_spec (measure_vals : List (String × Int)) :
    ∀ (mc : MetaCurriculum) (ret : List (String × Bool)),
    (measure_vals.map Prod.fst).Nodup →
    (∀ b ∈ measure_vals.map Prod.fst, dictMem mc.brains_to_curricula b = true) →
    (∀ b ∈ measure_vals.map Prod.fst, dictMem ret b = false) →
    ∃ mc' ret', incrementLoopAll mc measure_vals ret = some (mc', ret')
      ∧ ret'.map Prod.fst = ret.map Prod.fst ++ measure_vals.map Prod.fst
      ∧ (∀ b, b ∉ measure_vals.map Prod.fst → dictLookup ret' b = dictLookup ret b)
      ∧ (∀ b m c, (b, m) ∈ measure_vals →
          dictLookup mc.brains_to_curricula b = some c →
          dictLookup ret' b = some (c.increment_lesson m).2) := by
  induction measure_vals with
  | nil =>
    intro mc ret _ _ _
    exact ⟨mc, ret, rfl, by simp, fun b _ => rfl, fun b m c h => absurd h (List.not_mem_nil _)⟩
  | cons q rest ih =>
    obtain ⟨b₀, m₀⟩ := q
    intro mc ret hnd hown hfresh
    have hb₀ : b₀ ∈ ((b₀, m₀) :: rest).map Prod.fst := by simp
    obtain ⟨c₀, hc₀⟩ := Option.isSome_iff_exists.mp (hown b₀ hb₀)
    have hnd' : (b₀ :: rest.map Prod.fst).Nodup := by simpa using hnd
    have hb₀rest : b₀ ∉ rest.map Prod.fst := (List.nodup_cons.mp hnd').1
    have hretb₀ : dictMem ret b₀ = false := hfresh b₀ hb₀
    have hstep : incrementLoopAll mc ((b₀, m₀) :: rest) ret =
        incrementLoopAll ⟨dictInsert mc.brains_to_curricula b₀ (c₀.increment_lesson m₀).1⟩ rest
          (dictInsert ret b₀ (c₀.increment_lesson m₀).2) := by
      simp [incrementLoopAll, hc₀]
    have hretkeys : (dictInsert ret b₀ (c₀.increment_lesson m₀).2).map Prod.fst =
        ret.map Prod.fst ++ [b₀] := by
      rw [dictInsert_of_not_mem ret b₀ _ hretb₀]; simp
    obtain ⟨mc', ret', hrun, hkeys, hpres, hmain⟩ :=
      ih ⟨dictInsert mc.brains_to_curricula b₀ (c₀.increment_lesson m₀).1⟩
        (dictInsert ret b₀ (c₀.increment_lesson m₀).2)
        (by simpa using (List.nodup_cons.mp hnd').2)
        (by
          intro b hb
          have hb' : b ∈ ((b₀, m₀) :: rest).map Prod.fst := by simp [hb]
          unfold dictMem
          rw [dictLookup_dictInsert]
          by_cases hbb : b₀ = b
          · simp [hbb]
          · simpa [hbb, dictMem] using hown b hb')
        (by
          intro b hb
          have hbb : b₀ ≠ b := fun he => hb₀rest (he ▸ hb)
          unfold dictMem
          rw [dictLookup_dictInsert, if_neg hbb]
          exact hfresh b (by simp [hb]))
    refine ⟨mc', ret', hstep ▸ hrun, ?_, ?_, ?_⟩
    · rw [hkeys, hretkeys]; simp
    · intro b hb
      have hb1 : b ∉ rest.map Prod.fst := fun h => hb (by simp [h])
      have hb2 : b₀ ≠ b := fun he => hb (by simp [he])
      rw [hpres b hb1, dictLookup_dictInsert, if_neg hb2]
    · intro b m c hbm hc
      rcases List.mem_cons.mp hbm with h | h
      · injection h with hb hm
        subst hb
        subst hm
        have hcc : c₀ = c := Option.some.inj (hc₀.symm.trans hc)
        subst hcc
        rw [hpres b hb₀rest, dictLookup_dictInsert, if_pos rfl]
      · have hb2 : b₀ ≠ b := by
          intro he
          exact hb₀rest (he ▸ (List.mem_map.mpr ⟨(b, m), h, rfl⟩))
        have hc' : dictLookup (dictInsert mc.brains_to_curricula b₀
            (c₀.increment_lesson m₀).1) b = some c := by
          rw [dictLookup_dictInsert, if_neg hb2]; exact hc
        exact hmain b m c h hc'

/-- The unbuffered loop never changes the coordinator's key list (it
only ever reassigns existing brains). -/
theorem incrementLoopAll_keys (measure_vals : List (String × Int)) :
    ∀ (mc : MetaCurriculum) (ret : List (String × Bool))
      (mc' : MetaCurriculum) (ret' : List (String × Bool)),
    incrementLoopAll mc measure_vals ret = some (mc', ret') →
    mc'.brains_to_curricula.map Prod.fst = mc.brains_to_curricula.map Prod.fst := by
  induction measure_vals with
  | nil =>
    intro mc ret mc' ret' h
    obtain ⟨h1, _⟩ := Prod.mk.injEq .. ▸ Option.some.injEq .. ▸ h
    rw [← h1]
  | cons q rest ih =>
    obtain ⟨b₀, m₀⟩ := q
    intro mc ret mc' ret' h
    cases hc₀ : dictLookup mc.brains_to_curricula b₀ with
    | none => simp [incrementLoopAll, hc₀] at h
    | some c₀ =>
      have hmem : dictMem mc.brains_to_curricula b₀ = true := by
        simp [dictMem, hc₀]
      have hstep : incrementLoopAll mc ((b₀, m₀) :: rest) ret =
          incrementLoopAll ⟨dictInsert mc.brains_to_curricula b₀ (c₀.increment_lesson m₀).1⟩
            rest (dictInsert ret b₀ (c₀.increment_lesson m₀).2) := by
        simp [incrementLoopAll, hc₀]
      rw [hstep] at h
      rw [ih _ _ _ _ h]
      exact keys_dictInsert_of_mem _ _ _ hmem

/-! ### C8, C10, C6 : the directly computational claims. -/

/-- C8: for every path that is not a directory, from_directory fails with
the MetaCurriculumError carrying the "is not a directory" guidance text
and returns no coordinator. -/
theorem from_directory_not_a_directory (folder_path : String) (load : String → Curriculum) :
    from_directory folder_path .notADirectory load =
      .error (folder_path ++ " is not a directory. Refer to the ML-Agents curriculum learning docs.") :=
  rfl

/-- C10: supplying an empty reward_buff_sizes dict takes the same branch
as supplying none at all, so increment_lessons behaves identically:
unconditional increments over measure_vals. -/
theorem increment_lessons_empty_buff_eq_none (mc : MetaCurriculum)
    (measure_vals : List (String × Int)) :
    mc.increment_lessons measure_vals (some []) =
      mc.increment_lessons measure_vals none :=
  rfl

/-- C6: after set_all_curricula_to_lesson_num k, the lesson_nums getter
returns a mapping over exactly the owned brain names whose every value is
k. -/
theorem lesson_nums_after_set_all (mc : MetaCurriculum) (k : Int) :
    ((mc.set_all_curricula_to_lesson_num k).lesson_nums).map Prod.fst =
        mc.brains_to_curricula.map Prod.fst
    ∧ ∀ p ∈ (mc.set_all_curricula_to_lesson_num k).lesson_nums, p.2 = k := by
  constructor
  · simp [MetaCurriculum.lesson_nums, MetaCurriculum.set_all_curricula_to_lesson_num,
      List.map_map, Function.comp]
  · intro p hp
    simp only [MetaCurriculum.lesson_nums, MetaCurriculum.set_all_curricula_to_lesson_num,
      List.map_map, List.mem_map, Function.comp] at hp
    obtain ⟨q, _, hq⟩ := hp
    simp [← hq]

/-- C2: increment_lessons with no reward_buff_sizes supplied, every
measured brain owned: it returns a mapping whose key list is exactly the
measure_vals key list, each brain mapped to the boolean its own
curriculum's increment_lesson returns on that brain's measure value, with
no readiness gating. -/
theorem increment_lessons_no_buff_spec (mc : MetaCurriculum)
    (measure_vals : List (String × Int))
    (hnd : (measure_vals.map Prod.fst).Nodup)
    (hown : ∀ b ∈ measure_vals.map Prod.fst, dictMem mc.brains_to_curricula b = true) :
    ∃ p, mc.increment_lessons measure_vals none = some p
      ∧ p.2.map Prod.fst = measure_vals.map Prod.fst
      ∧ ∀ b m c, (b, m) ∈ measure_vals →
          dictLookup mc.brains_to_curricula b = some c →
          dictLookup p.2 b = some (c.increment_lesson m).2 := by
  obtain ⟨mc', ret', hrun, hkeys, _, hmain⟩ :=
    incrementLoopAll_spec measure_vals mc [] hnd hown (fun b _ => rfl)
  exact ⟨(mc', ret'), hrun, by simpa using hkeys, hmain⟩

/-- Witness for the C2 theorem: both brains of the concrete coordinator
are measured and the hypotheses hold by evaluation. -/
theorem increment_lessons_no_buff_spec_witness :
    ∃ p, mcW.increment_lessons [("A", 7), ("B", 3)] none = some p
      ∧ p.2.map Prod.fst = [("A", (7 : Int)), ("B", 3)].map Prod.fst
      ∧ ∀ b m c, (b, m) ∈ [("A", (7 : Int)), ("B", 3)] →
          dictLookup mcW.brains_to_curricula b = some c →
          dictLookup p.2 b = some (c.increment_lesson m).2 :=
  increment_lessons_no_buff_spec mcW [("A", 7), ("B", 3)]
    (by decide)
    (by
      intro b hb
      simp only [List.map_cons, List.map_nil, List.mem_cons, List.not_mem_nil, or_false] at hb
      rcases hb with rfl | rfl <;> decide)

/-! ### The buffered branch of increment_lessons. -/

/-- The buffered loop only ever writes result keys that occur in the
buffer-size dict: any other key's result lookup is untouched. -/
theorem incrementLoopBuffered_lookup_of_not_mem (rbs : List (String × Int)) :
    ∀ (mc : MetaCurriculum) (measure_vals : List (String × Int))
      (ret : List (String × Bool)) (mc' : MetaCurriculum)
      (ret' : List (String × Bool)) (b : String),
    incrementLoopBuffered mc rbs measure_vals ret = some (mc', ret') →
    b ∉ rbs.map Prod.fst →
    dictLookup ret' b = dictLookup ret b := by
  induction rbs with
  | nil =>
    intro mc mv ret mc' ret' b h _
    obtain ⟨_, h2⟩ := Prod.mk.injEq .. ▸ Option.some.injEq .. ▸ h
    rw [← h2]
  | cons q rest ih =>
    obtain ⟨b₀, s₀⟩ := q
    intro mc mv ret mc' ret' b h hb
    have hbrest : b ∉ rest.map Prod.fst := fun hh => hb (by simp [hh])
    have hb0 : b₀ ≠ b := fun he => hb (by simp [he])
    simp only [incrementLoopBuffered] at h
    by_cases hr : mc.lesson_ready_to_increment b₀ s₀ = true
    · rw [if_pos hr] at h
      cases hmv : dictLookup mv b₀ with
      | none => rw [hmv] at h; exact absurd h (by simp)
      | some m₀ =>
        rw [hmv] at h
        cases hcc : dictLookup mc.brains_to_curricula b₀ with
        | none => rw [hcc] at h; exact absurd h (by simp)
        | some c₀ =>
          rw [hcc] at h
          rw [ih _ _ _ _ _ b h hbrest, dictLookup_dictInsert, if_neg hb0]
    · rw [if_neg hr] at h
      exact ih _ _ _ _ _ b h hbrest

/-- The buffered loop never changes the coordinator's key list. -/
theorem incrementLoopBuffered_keys (rbs : List (String × Int)) :
    ∀ (mc : MetaCurriculum) (measure_vals : List (String × Int))
      (ret : List (String × Bool)) (mc' : MetaCurriculum)
      (ret' : List (String × Bool)),
    incrementLoopBuffered mc rbs measure_vals ret = some (mc', ret') →
    mc'.brains_to_curricula.map Prod.fst = mc.brains_to_curricula.map Prod.fst := by
  induction rbs with
  | nil =>
    intro mc mv ret mc' ret' h
    obtain ⟨h1, _⟩ := Prod.mk.injEq .. ▸ Option.some.injEq .. ▸ h
    rw [← h1]
  | cons q rest ih =>
    obtain ⟨b₀, s₀⟩ := q
    intro mc mv ret mc' ret' h
    simp only [incrementLoopBuffered] at h
    by_cases hr : mc.lesson_ready_to_increment b₀ s₀ = true
    · rw [if_pos hr] at h
      cases hmv : dictLookup mv b₀ with
      | none => rw [hmv] at h; exact absurd h (by simp)
      | some m₀ =>
        rw [hmv] at h
        cases hcc : dictLookup mc.brains_to_curricula b₀ with
        | none => rw [hcc] at h; exact absurd h (by simp)
        | some c₀ =>
          rw [hcc] at h
          rw [ih _ _ _ _ _ h]
          exact keys_dictInsert_of_mem _ _ _ (by simp [dictMem, hcc])
    · rw [if_neg hr] at h
      exact ih _ _ _ _ _ h

/-- On the buffered loop, a listed brain with a known curriculum:
below the minimum lesson length it never reaches the result dict, and at
or above it the loop looked up its measure value and recorded its own
curriculum's increment boolean. -/
theorem incrementLoopBuffered_mem_spec (brain : String) (buff : Int) (c : Curriculum)
    (rbs : List (String × Int)) :
    ∀ (mc : MetaCurriculum) (measure_vals : List (String × Int))
      (ret : List (String × Bool)) (mc' : MetaCurriculum)
      (ret' : List (String × Bool)),
    incrementLoopBuffered mc rbs measure_vals ret = some (mc', ret') →
    (rbs.map Prod.fst).Nodup →
    (brain, buff) ∈ rbs →
    dictLookup mc.brains_to_curricula brain = some c →
    dictLookup ret brain = none →
    (buff < c.min_lesson_length → dictLookup ret' brain = none)
    ∧ (c.min_lesson_length ≤ buff →
        ∃ m, dictLookup measure_vals brain = some m
          ∧ dictLookup ret' brain = some (c.increment_lesson m).2) := by
  induction rbs with
  | nil =>
    intro _ _ _ _ _ _ _ hmem _ _
    exact absurd hmem (List.not_mem_nil _)
  | cons q rest ih =>
    obtain ⟨b₀, s₀⟩ := q
    intro mc mv ret mc' ret' h hnd hmem hc hret
    have hnd' : (b₀ :: rest.map Prod.fst).Nodup := by simpa using hnd
    simp only [incrementLoopBuffered] at h
    rcases List.mem_cons.mp hmem with hhead | htail
    · injection hhead with hb hs
      subst hb
      subst hs
      have hbrest : brain ∉ rest.map Prod.fst := (List.nodup_cons.mp hnd').1
      have hready : mc.lesson_ready_to_increment brain buff =
          decide (c.min_lesson_length ≤ buff) := by
        simp [MetaCurriculum.lesson_ready_to_increment, hc]
      rw [hready] at h
      by_cases hcase : c.min_lesson_length ≤ buff
      · rw [if_pos (by simpa using hcase)] at h
        cases hmv : dictLookup mv brain with
        | none => rw [hmv] at h; exact absurd h (by simp)
        | some m₀ =>
          rw [hmv, hc] at h
          have hfin := incrementLoopBuffered_lookup_of_not_mem rest _ _ _ _ _ brain h hbrest
          constructor
          · intro hlt; exact absurd hcase (not_le.mpr hlt)
          · intro _
            refine ⟨m₀, rfl, ?_⟩
            rw [hfin, dictLookup_dictInsert, if_pos rfl]
      · rw [if_neg (by simpa using hcase)] at h
        have hfin := incrementLoopBuffered_lookup_of_not_mem rest _ _ _ _ _ brain h hbrest
        constructor
        · intro _; rw [hfin]; exact hret
        · intro hle; exact absurd hle hcase
    · have hb0 : b₀ ≠ brain := by
        intro he
        exact (List.nodup_cons.mp hnd').1
          (he ▸ List.mem_map.mpr ⟨(brain, buff), htail, rfl⟩)
      have hndrest : (rest.map Prod.fst).Nodup := (List.nodup_cons.mp hnd').2
      by_cases hr : mc.lesson_ready_to_increment b₀ s₀ = true
      · rw [if_pos hr] at h
        cases hmv : dictLookup mv b₀ with
        | none => rw [hmv] at h; exact absurd h (by simp)
        | some m₀ =>
          rw [hmv] at h
          cases hcc : dictLookup mc.brains_to_curricula b₀ with
          | none => rw [hcc] at h; exact absurd h (by simp)
          | some c₀ =>
            rw [hcc] at h
            refine ih _ _ _ _ _ h hndrest htail ?_ ?_
            · rw [dictLookup_dictInsert, if_neg hb0]; exact hc
            · rw [dictLookup_dictInsert, if_neg hb0]; exact hret
      · rw [if_neg hr] at h
        exact ih _ _ _ _ _ h hndrest htail hc hret

/-- A ready brain whose measure value is missing makes the buffered loop
raise the KeyError (return none), whatever the accumulated state. -/
theorem incrementLoopBuffered_missing_measure (brain : String) (buff : Int)
    (rbs : List (String × Int)) :
    ∀ (mc : MetaCurriculum) (measure_vals : List (String × Int))
      (ret : List (String × Bool)),
    (brain, buff) ∈ rbs →
    (∃ c, dictLookup mc.brains_to_curricula brain = some c
        ∧ c.min_lesson_length ≤ buff) →
    dictLookup measure_vals brain = none →
    incrementLoopBuffered mc rbs measure_vals ret = none := by
  induction rbs with
  | nil =>
    intro _ _ _ hmem _ _
    exact absurd hmem (List.not_mem_nil _)
  | cons q rest ih =>
    obtain ⟨b₀, s₀⟩ := q
    intro mc mv ret hmem hex hmv
    obtain ⟨c, hcl, hcmin⟩ := hex
    simp only [incrementLoopBuffered]
    rcases List.mem_cons.mp hmem with hhead | htail
    · injection hhead with hb hs
      subst hb
      subst hs
      have hready : mc.lesson_ready_to_increment brain buff = true := by
        simp [MetaCurriculum.lesson_ready_to_increment, hcl, hcmin]
      rw [if_pos hready, hmv]
    · by_cases hr : mc.lesson_ready_to_increment b₀ s₀ = true
      · rw [if_pos hr]
        cases hmv₀ : dictLookup mv b₀ with
        | none => rfl
        | some m₀ =>
          cases hcc : dictLookup mc.brains_to_curricula b₀ with
          | none => rfl
          | some c₀ =>
            apply ih _ _ _ htail ?_ hmv
            by_cases hbb : b₀ = brain
            · subst hbb
              have hcc' : c₀ = c := Option.some.inj (hcc.symm.trans hcl)
              subst hcc'
              refine ⟨(c₀.increment_lesson m₀).1, ?_, hcmin⟩
              rw [dictLookup_dictInsert, if_pos rfl]
            · refine ⟨c, ?_, hcmin⟩
              rw [dictLookup_dictInsert, if_neg hbb]
              exact hcl
      · rw [if_neg hr]
        exact ih _ _ _ htail ⟨c, hcl, hcmin⟩ hmv

/-- C1: increment_lessons with a non-empty reward_buff_sizes dict, for a
brain listed there with a known curriculum: a buffer size below the
curriculum's min_lesson_length keeps the brain out of the returned
mapping; a buffer size at or above it puts the brain in the returned
mapping, bound to exactly the boolean its curriculum's increment_lesson
returns on the brain's measure value. -/
theorem increment_lessons_buffered_spec (mc : MetaCurriculum)
    (measure_vals rbs : List (String × Int)) (brain : String) (buff : Int)
    (c : Curriculum) (p : MetaCurriculum × List (String × Bool))
    (hne : rbs ≠ [])
    (hnd : (rbs.map Prod.fst).Nodup)
    (hmem : (brain, buff) ∈ rbs)
    (hc : dictLookup mc.brains_to_curricula brain = some c)
    (hrun : mc.increment_lessons measure_vals (some rbs) = some p) :
    (buff < c.min_lesson_length → dictLookup p.2 brain = none)
    ∧ (c.min_lesson_length ≤ buff →
        ∃ m, dictLookup measure_vals brain = some m
          ∧ dictLookup p.2 brain = some (c.increment_lesson m).2) := by
  have hemp : rbs.isEmpty = false := by
    cases rbs with
    | nil => exact absurd rfl hne
    | cons a l => rfl
  simp only [MetaCurriculum.increment_lessons, hemp, Bool.false_eq_true,
    if_false] at hrun
  obtain ⟨mc', ret'⟩ := p
  exact incrementLoopBuffered_mem_spec brain buff c rbs mc measure_vals [] mc' ret'
    hrun hnd hmem hc rfl

/-- Witness for the C1 theorem: in the concrete coordinator, brain A with
buffer size 15 (at its minimum of 10) and measure 7 appears in the result
with its curriculum's boolean. -/
theorem increment_lessons_buffered_spec_witness :
    ((15 : Int) < aCur.min_lesson_length → dictLookup pW.2 "A" = none)
    ∧ (aCur.min_lesson_length ≤ (15 : Int) →
        ∃ m, dictLookup [(("A" : String), (7 : Int))] "A" = some m
          ∧ dictLookup pW.2 "A" = some (aCur.increment_lesson m).2) :=
  increment_lessons_buffered_spec mcW [("A", 7)] [("A", 15), ("B", 1)] "A" 15 aCur pW
    (by decide) (by decide) (by decide) rfl rfl

/-- C3: increment_lessons with a non-empty reward_buff_sizes dict raises
the KeyError (fails, rather than silently skipping) whenever some listed
brain is ready but missing from measure_vals. -/
theorem increment_lessons_missing_measure (mc : MetaCurriculum)
    (measure_vals rbs : List (String × Int)) (brain : String) (buff : Int)
    (c : Curriculum)
    (hmem : (brain, buff) ∈ rbs)
    (hc : dictLookup mc.brains_to_curricula brain = some c)
    (hready : c.min_lesson_length ≤ buff)
    (hmv : dictLookup measure_vals brain = none) :
    mc.increment_lessons measure_vals (some rbs) = none := by
  have hemp : rbs.isEmpty = false := by
    cases rbs with
    | nil => exact absurd hmem (List.not_mem_nil _)
    | cons a l => rfl
  simp only [MetaCurriculum.increment_lessons, hemp, Bool.false_eq_true, if_false]
  exact incrementLoopBuffered_missing_measure brain buff rbs mc measure_vals []
    hmem ⟨c, hc, hready⟩ hmv

/-- Witness for the C3 theorem: ready brain A is absent from the measure
dict and the concrete call fails. -/
theorem increment_lessons_missing_measure_witness :
    mcW.increment_lessons [("B", 3)] (some [("A", 15)]) = none :=
  increment_lessons_missing_measure mcW [("B", 3)] [("A", 15)] "A" 15 aCur
    (by decide) rfl (by decide) rfl

/-! ### The bulk lesson_nums setter. -/

/-- The setter loop only reassigns existing brains, so the key list of
the dict it returns (on success or on the partially-mutated error state)
is the key list it started from. -/
theorem setLessonNumsLoop_keys (input : List (String × Int)) :
    ∀ d : List (String × Curriculum),
      (∀ d', setLessonNumsLoop d input = .ok d' → d'.map Prod.fst = d.map Prod.fst)
      ∧ (∀ d', setLessonNumsLoop d input = .error d' → d'.map Prod.fst = d.map Prod.fst) := by
  induction input with
  | nil =>
    intro d
    constructor
    · intro d' h
      have hd : d = d' := by simpa [setLessonNumsLoop] using h
      rw [← hd]
    · intro d' h
      simp [setLessonNumsLoop] at h
  | cons q rest ih =>
    obtain ⟨b₀, l₀⟩ := q
    intro d
    constructor
    · intro d' h
      simp only [setLessonNumsLoop] at h
      cases hc : dictLookup d b₀ with
      | none => rw [hc] at h; exact absurd h (by simp)
      | some c =>
        rw [hc] at h
        rw [(ih _).1 d' h]
        exact keys_dictInsert_of_mem _ _ _ (by simp [dictMem, hc])
    · intro d' h
      simp only [setLessonNumsLoop] at h
      cases hc : dictLookup d b₀ with
      | none =>
        rw [hc] at h
        have hd : d = d' := by simpa using h
        rw [← hd]
      | some c =>
        rw [hc] at h
        rw [(ih _).2 d' h]
        exact keys_dictInsert_of_mem _ _ _ (by simp [dictMem, hc])

/-- An input entry naming an unknown brain makes the setter loop raise
the KeyError: it ends in the error state, never in success. -/
theorem setLessonNumsLoop_unknown (input : List (String × Int)) :
    ∀ d : List (String × Curriculum),
    (∃ q ∈ input, dictMem d q.1 = false) →
    ∃ d', setLessonNumsLoop d input = .error d' := by
  induction input with
  | nil =>
    rintro d ⟨q, hq, _⟩
    exact absurd hq (List.not_mem_nil _)
  | cons q₀ rest ih =>
    obtain ⟨b₀, l₀⟩ := q₀
    rintro d ⟨q, hq, hmemf⟩
    simp only [setLessonNumsLoop]
    cases hc : dictLookup d b₀ with
    | none => exact ⟨d, rfl⟩
    | some c =>
      apply ih
      rcases List.mem_cons.mp hq with hh | ht
      · subst hh
        exact absurd hmemf (by simp [dictMem, hc])
      · refine ⟨q, ht, ?_⟩
        unfold dictMem
        rw [dictLookup_dictInsert]
        by_cases hbb : b₀ = q.1
        · exfalso
          rw [← hbb] at hmemf
          simp [dictMem, hc] at hmemf
        · rw [if_neg hbb]
          exact hmemf

/-- C7: the owned brain-name list is fixed at construction: set_all, the
bulk lesson_nums setter (on success and on its partially-applied error
state) and increment_lessons all preserve it, and a setter input naming
an unknown brain raises the lookup error instead of adding the brain.
The lesson_nums getter and get_config are pure reads in the embedding and
touch no state at all. -/
theorem brains_fixed_after_construction (mc : MetaCurriculum) (k : Int)
    (input measure_vals : List (String × Int))
    (reward_buff_sizes : Option (List (String × Int))) :
    ((mc.set_all_curricula_to_lesson_num k).brains_to_curricula.map Prod.fst
        = mc.brains_to_curricula.map Prod.fst)
    ∧ (∀ mc', mc.set_lesson_nums input = .ok mc' →
        mc'.brains_to_curricula.map Prod.fst = mc.brains_to_curricula.map Prod.fst)
    ∧ (∀ mc', mc.set_lesson_nums input = .error mc' →
        mc'.brains_to_curricula.map Prod.fst = mc.brains_to_curricula.map Prod.fst)
    ∧ ((∃ q ∈ input, dictMem mc.brains_to_curricula q.1 = false) →
        ∃ mc', mc.set_lesson_nums input = .error mc')
    ∧ (∀ p, mc.increment_lessons measure_vals reward_buff_sizes = some p →
        p.1.brains_to_curricula.map Prod.fst = mc.brains_to_curricula.map Prod.fst) := by
  refine ⟨?_, ?_, ?_, ?_, ?_⟩
  · simp [MetaCurriculum.set_all_curricula_to_lesson_num, List.map_map, Function.comp]
  · intro mc' h
    simp only [MetaCurriculum.set_lesson_nums] at h
    cases hs : setLessonNumsLoop mc.brains_to_curricula input with
    | ok d =>
      rw [hs] at h
      have hd : MetaCurriculum.mk d = mc' := by simpa using h
      rw [← hd]
      exact (setLessonNumsLoop_keys input mc.brains_to_curricula).1 d hs
    | error d =>
      rw [hs] at h
      exact absurd h (by simp)
  · intro mc' h
    simp only [MetaCurriculum.set_lesson_nums] at h
    cases hs : setLessonNumsLoop mc.brains_to_curricula input with
    | ok d =>
      rw [hs] at h
      exact absurd h (by simp)
    | error d =>
      rw [hs] at h
      have hd : MetaCurriculum.mk d = mc' := by simpa using h
      rw [← hd]
      exact (setLessonNumsLoop_keys input mc.brains_to_curricula).2 d hs
  · intro hex
    obtain ⟨d', hd'⟩ := setLessonNumsLoop_unknown input mc.brains_to_curricula hex
    exact ⟨⟨d'⟩, by simp only [MetaCurriculum.set_lesson_nums, hd']⟩
  · intro p h
    obtain ⟨mc', ret'⟩ := p
    cases reward_buff_sizes with
    | none =>
      simp only [MetaCurriculum.increment_lessons] at h
      exact incrementLoopAll_keys measure_vals mc [] mc' ret' h
    | some rbs =>
      simp only [MetaCurriculum.increment_lessons] at h
      by_cases he : rbs.isEmpty = true
      · rw [if_pos he] at h
        exact incrementLoopAll_keys measure_vals mc [] mc' ret' h
      · rw [if_neg he] at h
        exact incrementLoopBuffered_keys rbs mc measure_vals [] mc' ret' h

/-! ### Construction warnings. -/

theorem ite_one_zero_eq_zero (b : Bool) : (if b = true then (1 : Nat) else 0) = 0 ↔ b = false := by
  cases b <;> simp

/-- The construction loop logs zero warnings exactly when no curriculum's
config keys meet the keys of the curricula processed before it. -/
theorem initLoop_warnings_eq_zero (l : List (String × Curriculum)) :
    ∀ (used : List String) (acc : List (String × Curriculum)),
    ((initLoop l used acc).2 = 0 ↔ NoCollide l used) := by
  induction l with
  | nil => intro used acc; simp [initLoop, NoCollide]
  | cons p rest ih =>
    obtain ⟨b, c⟩ := p
    intro used acc
    simp only [initLoop, NoCollide]
    rw [Nat.add_eq_zero, ite_one_zero_eq_zero,
      ih (used ++ c.get_config.map Prod.fst) (dictInsert acc b c)]
    constructor
    · rintro ⟨h1, h2⟩
      refine ⟨?_, h2⟩
      intro k hk hku
      rw [List.any_eq_false] at h1
      exact absurd (List.elem_iff.mpr hku) (by simpa using h1 k hk)
    · rintro ⟨h1, h2⟩
      refine ⟨?_, h2⟩
      rw [List.any_eq_false]
      intro k hk
      simpa using fun hku => h1 k hk (List.elem_iff.mp hku)

/-- NoCollide over a running key set, unfolded: the running keys meet no
curriculum, and the curricula configs are pairwise key-disjoint. -/
theorem noCollide_iff (l : List (String × Curriculum)) :
    ∀ used : List String,
    NoCollide l used ↔
      ((∀ k ∈ used, ∀ q ∈ l, k ∉ q.2.get_config.map Prod.fst)
        ∧ l.Pairwise (fun p q => ∀ k ∈ p.2.get_config.map Prod.fst,
            k ∉ q.2.get_config.map Prod.fst)) := by
  induction l with
  | nil => intro used; simp [NoCollide]
  | cons p rest ih =>
    obtain ⟨b, c⟩ := p
    intro used
    simp only [NoCollide, ih, List.pairwise_cons, List.mem_cons, List.mem_append]
    constructor
    · rintro ⟨h1, h2, h3⟩
      refine ⟨?_, ?_, h3⟩
      · rintro k hk q (rfl | hq)
        · exact fun hkc => h1 k hkc hk
        · exact h2 k (Or.inl hk) q hq
      · intro q hq k hk
        exact h2 k (Or.inr hk) q hq
    · rintro ⟨h1, h2, h3⟩
      refine ⟨?_, ?_, h3⟩
      · intro k hk hku
        exact h1 k hku (b, c) (Or.inl rfl) hk
      · rintro k (hku | hkc) q hq
        · exact h1 k hku q (Or.inr hq)
        · exact h2 q hq k hkc

/-- The construction loop leaves dict entries at unlisted brain names
untouched. -/
theorem initLoop_lookup_not_mem (l : List (String × Curriculum)) :
    ∀ (used : List String) (acc : List (String × Curriculum)) (b : String),
    b ∉ l.map Prod.fst →
    dictLookup (initLoop l used acc).1 b = dictLookup acc b := by
  induction l with
  | nil => intro _ _ _ _; rfl
  | cons p rest ih =>
    obtain ⟨b₀, c₀⟩ := p
    intro used acc b hb
    have h1 : b ∉ rest.map Prod.fst := fun h => hb (by simp [h])
    have h2 : b₀ ≠ b := fun he => hb (by simp [he])
    simp only [initLoop]
    rw [ih _ _ b h1, dictLookup_dictInsert, if_neg h2]

/-- With distinct brain names, the construction loop stores every listed
curriculum under its own brain name. -/
theorem initLoop_lookup_mem (l : List (String × Curriculum)) :
    ∀ (used : List String) (acc : List (String × Curriculum)) (b : String) (c : Curriculum),
    (l.map Prod.fst).Nodup →
    (b, c) ∈ l →
    dictLookup (initLoop l used acc).1 b = some c := by
  induction l with
  | nil => intro _ _ _ _ _ hmem; exact absurd hmem (List.not_mem_nil _)
  | cons p rest ih =>
    obtain ⟨b₀, c₀⟩ := p
    intro used acc b c hnd hmem
    have hnd' : (b₀ :: rest.map Prod.fst).Nodup := by simpa using hnd
    simp only [initLoop]
    rcases List.mem_cons.mp hmem with hh | ht
    · injection hh with hb hc
      subst hb
      subst hc
      rw [initLoop_lookup_not_mem rest _ _ b (List.nodup_cons.mp hnd').1,
        dictLookup_dictInsert, if_pos rfl]
    · exact ih _ _ b c (List.nodup_cons.mp hnd').2 ht

/-- C4: construction is total (never raises); given distinct brain
names it stores every curriculum under its brain name, and it emits no
warning exactly when the curricula's config key sets are pairwise
disjoint — equivalently, a warning is emitted exactly when some
curriculum's keys meet the keys of the previously processed curricula. -/
theorem init_spec (curricula : List (String × Curriculum))
    (hnd : (curricula.map Prod.fst).Nodup) :
    (initWarnings curricula = 0 ↔
      curricula.Pairwise (fun p q => ∀ k ∈ p.2.get_config.map Prod.fst,
        k ∉ q.2.get_config.map Prod.fst))
    ∧ ∀ q ∈ curricula, dictLookup (init curricula).brains_to_curricula q.1 = some q.2 := by
  constructor
  · rw [initWarnings, initLoop_warnings_eq_zero, noCollide_iff]
    simp
  · rintro ⟨b, c⟩ hq
    exact initLoop_lookup_mem curricula [] [] b c hnd hq

/-- Witness for the C4 theorem: two key-disjoint curricula construct with
zero warnings and are both stored. -/
theorem init_spec_witness :
    (initWarnings [("A", aCur), ("B", bCur)] = 0 ↔
      [("A", aCur), ("B", bCur)].Pairwise (fun p q => ∀ k ∈ p.2.get_config.map Prod.fst,
        k ∉ q.2.get_config.map Prod.fst))
    ∧ ∀ q ∈ [("A", aCur), ("B", bCur)],
        dictLookup (init [("A", aCur), ("B", bCur)]).brains_to_curricula q.1 = some q.2 :=
  init_spec [("A", aCur), ("B", bCur)] (by decide)

/-- Witness for the C7 theorem: the setter given the unknown brain Z
raises the lookup error on the concrete coordinator. -/
theorem brains_fixed_after_construction_witness :
    ∃ mc', mcW.set_lesson_nums [("Z", 1)] = .error mc' :=
  (brains_fixed_after_construction mcW 2 [("Z", 1)] [("A", 7)] none).2.2.2.1
    ⟨("Z", 1), by decide, by decide⟩

/-- Witness for the C6 theorem at a concrete coordinator and lesson. -/
theorem lesson_nums_after_set_all_witness :
    ((mcA.set_all_curricula_to_lesson_num 3).lesson_nums).map Prod.fst =
        mcA.brains_to_curricula.map Prod.fst
    ∧ ∀ p ∈ (mcA.set_all_curricula_to_lesson_num 3).lesson_nums, p.2 = 3 :=
  lesson_nums_after_set_all mcA 3

/-! ### get_config merging. -/

/-- Looking up in dict.update(e): bindings of e (a dict, so with distinct
keys) win over the ones already in d. -/
theorem dictLookup_dictUpdate (e : List (String × Int)) :
    ∀ (d : List (String × Int)) (k : String),
    (e.map Prod.fst).Nodup →
    dictLookup (dictUpdate d e) k =
      match dictLookup e k with
      | some v => some v
      | none => dictLookup d k := by
  induction e with
  | nil => intro d k _; rfl
  | cons q rest ih =>
    obtain ⟨k₀, v₀⟩ := q
    intro d k hnd
    have hnd' : (k₀ :: rest.map Prod.fst).Nodup := by simpa using hnd
    have hstep : dictUpdate d ((k₀, v₀) :: rest) = dictUpdate (dictInsert d k₀ v₀) rest := rfl
    rw [hstep, ih _ k (List.nodup_cons.mp hnd').2]
    by_cases hk : k₀ = k
    · subst hk
      have hrest : dictLookup rest k₀ = none :=
        (dictLookup_eq_none_iff rest k₀).mpr (List.nodup_cons.mp hnd').1
      rw [hrest]
      simp [dictLookup, dictLookup_dictInsert]
    · cases hr : dictLookup rest k <;>
        simp [dictLookup, hk, hr, dictLookup_dictInsert]

/-- The get_config fold realizes last-writer-wins over the curricula, on
top of whatever the accumulator already holds. -/
theorem get_config_foldl (l : List (String × Curriculum)) :
    ∀ (acc : List (String × Int)) (k : String),
    (∀ p ∈ l, (p.2.get_config.map Prod.fst).Nodup) →
    dictLookup (l.foldl (fun acc p => dictUpdate acc p.2.get_config) acc) k =
      match lastConfigLookup l k with
      | some v => some v
      | none => dictLookup acc k := by
  induction l with
  | nil => intro acc k _; rfl
  | cons p rest ih =>
    intro acc k hnd
    have hstep : ((p :: rest).foldl (fun acc q => dictUpdate acc q.2.get_config) acc)
        = rest.foldl (fun acc q => dictUpdate acc q.2.get_config)
            (dictUpdate acc p.2.get_config) := rfl
    rw [hstep, ih _ k (fun q hq => hnd q (by simp [hq])),
      dictLookup_dictUpdate p.2.get_config acc k (hnd p (by simp))]
    cases hr : lastConfigLookup rest k with
    | some v => simp [lastConfigLookup, hr]
    | none =>
      cases hp : dictLookup p.2.get_config k <;> simp [lastConfigLookup, hr, hp]

/-- lastConfigLookup finds a value exactly when some curriculum's config
carries the key. -/
theorem lastConfigLookup_isSome (l : List (String × Curriculum)) (k : String) :
    (lastConfigLookup l k).isSome = true ↔
      ∃ p ∈ l, k ∈ p.2.get_config.map Prod.fst := by
  induction l with
  | nil => simp [lastConfigLookup]
  | cons p rest ih =>
    simp only [lastConfigLookup, List.mem_cons]
    cases hr : lastConfigLookup rest k with
    | some v =>
      simp only [Option.isSome_some, true_iff]
      obtain ⟨q, hq, hk⟩ := ih.mp (by simp [hr])
      exact ⟨q, Or.inr hq, hk⟩
    | none =>
      have hrest : ¬ ∃ q ∈ rest, k ∈ q.2.get_config.map Prod.fst := by
        rw [← ih, hr]; simp
      constructor
      · intro hs
        exact ⟨p, Or.inl rfl, (dictMem_iff_mem_keys _ _).mp hs⟩
      · rintro ⟨q, (rfl | hq), hk⟩
        · exact (dictMem_iff_mem_keys _ _).mpr hk
        · exact absurd ⟨q, hq, hk⟩ hrest

/-- When the suffix already resolves the key, a prefix of earlier
curricula cannot override it (later writers win). -/
theorem lastConfigLookup_append_isSome (l₁ : List (String × Curriculum)) :
    ∀ (l₂ : List (String × Curriculum)) (k : String),
    (lastConfigLookup l₂ k).isSome = true →
    lastConfigLookup (l₁ ++ l₂) k = lastConfigLookup l₂ k := by
  induction l₁ with
  | nil => intro l₂ k _; rfl
  | cons p rest ih =>
    intro l₂ k hs
    have hih := ih l₂ k hs
    obtain ⟨v, hv⟩ := Option.isSome_iff_exists.mp hs
    simp only [List.cons_append, lastConfigLookup, List.append_eq, hih, hv]

/-- C5: get_config returns a dict whose keys are exactly the union of
the curricula's config keys, and whose value at a key is the value from
the last curriculum (under iteration order) whose config carries the
key. -/
theorem get_config_spec (mc : MetaCurriculum)
    (hnd : ∀ p ∈ mc.brains_to_curricula, (p.2.get_config.map Prod.fst).Nodup) :
    (∀ k, (dictLookup mc.get_config k).isSome = true ↔
        ∃ p ∈ mc.brains_to_curricula, k ∈ p.2.get_config.map Prod.fst)
    ∧ ∀ pre p post k, mc.brains_to_curricula = pre ++ p :: post →
        k ∈ p.2.get_config.map Prod.fst →
        (∀ q ∈ post, k ∉ q.2.get_config.map Prod.fst) →
        dictLookup mc.get_config k = dictLookup p.2.get_config k := by
  have hbase : ∀ k, dictLookup mc.get_config k = lastConfigLookup mc.brains_to_curricula k := by
    intro k
    rw [MetaCurriculum.get_config, get_config_foldl mc.brains_to_curricula [] k hnd]
    cases hr : lastConfigLookup mc.brains_to_curricula k <;> simp [dictLookup]
  constructor
  · intro k
    rw [hbase k, lastConfigLookup_isSome]
  · intro pre p post k hdecomp hk hpost
    rw [hbase k, hdecomp]
    have hpostnone : lastConfigLookup post k = none := by
      cases hp : lastConfigLookup post k with
      | none => rfl
      | some v =>
        obtain ⟨q, hq, hkq⟩ := (lastConfigLookup_isSome post k).mp (by simp [hp])
        exact absurd hkq (hpost q hq)
    have hcons : lastConfigLookup (p :: post) k = dictLookup p.2.get_config k := by
      simp [lastConfigLookup, hpostnone]
    have hsome : (lastConfigLookup (p :: post) k).isSome = true := by
      rw [hcons]
      exact (dictMem_iff_mem_keys _ _).mpr hk
    rw [lastConfigLookup_append_isSome pre (p :: post) k hsome, hcons]

/-- Witness for the C5 theorem: in the concrete coordinator the key x
comes from curriculum A, the only one carrying it. -/
theorem get_config_spec_witness :
    dictLookup mcW.get_config "x" = dictLookup aCur.get_config "x" :=
  (get_config_spec mcW (by decide)).2 [] ("A", aCur) [("B", bCur)] "x" rfl
    (by decide) (by decide)

/-! ### The directory factory over a listing. -/

/-- Key presence in the from_directory accumulation: a brain name is
present exactly when some listed file name lowers to the .json extension
and has that base name. -/
theorem dirStep_foldl_isSome (load : String → Curriculum) (names : List String) :
    ∀ (acc : List (String × Curriculum)) (b : String),
    (dictLookup (names.foldl (dirStep load) acc) b).isSome = true
    ↔ ((dictLookup acc b).isSome = true
        ∨ ∃ fn ∈ names, strLower (splitext fn).2 = ".json" ∧ (splitext fn).1 = b) := by
  induction names with
  | nil => intro acc b; simp
  | cons fn rest ih =>
    intro acc b
    simp only [List.foldl_cons, dirStep]
    by_cases hfn : strLower (splitext fn).2 = ".json"
    · rw [if_pos hfn, ih]
      constructor
      · rintro (hs | ⟨g, hg, h1, h2⟩)
        · rw [dictLookup_dictInsert] at hs
          by_cases hb : (splitext fn).1 = b
          · exact Or.inr ⟨fn, by simp, hfn, hb⟩
          · rw [if_neg hb] at hs
            exact Or.inl hs
        · exact Or.inr ⟨g, by simp [hg], h1, h2⟩
      · rintro (hs | ⟨g, hg, h1, h2⟩)
        · left
          rw [dictLookup_dictInsert]
          by_cases hb : (splitext fn).1 = b
          · simp [hb]
          · rw [if_neg hb]
            exact hs
        · rcases List.mem_cons.mp hg with rfl | hg'
          · left
            rw [dictLookup_dictInsert, if_pos h2]
            rfl
          · exact Or.inr ⟨g, hg', h1, h2⟩
    · rw [if_neg hfn, ih]
      constructor
      · rintro (hs | ⟨g, hg, h1, h2⟩)
        · exact Or.inl hs
        · exact Or.inr ⟨g, by simp [hg], h1, h2⟩
      · rintro (hs | ⟨g, hg, h1, h2⟩)
        · exact Or.inl hs
        · rcases List.mem_cons.mp hg with rfl | hg'
          · exact absurd h1 hfn
          · exact Or.inr ⟨g, hg', h1, h2⟩

/-- Construction keeps exactly the brain names of its input dict. -/
theorem initLoop_isSome (l : List (String × Curriculum)) :
    ∀ (used : List String) (acc : List (String × Curriculum)) (b : String),
    (dictLookup (initLoop l used acc).1 b).isSome = true
      ↔ ((dictLookup acc b).isSome = true ∨ b ∈ l.map Prod.fst) := by
  induction l with
  | nil => intro used acc b; simp [initLoop]
  | cons p rest ih =>
    obtain ⟨b₀, c₀⟩ := p
    intro used acc b
    simp only [initLoop, List.map_cons, List.mem_cons]
    rw [ih, dictLookup_dictInsert]
    by_cases hb : b₀ = b
    · simp [hb]
    · rw [if_neg hb]
      constructor
      · rintro (hs | hm)
        · exact Or.inl hs
        · exact Or.inr (Or.inr hm)
      · rintro (hs | rfl | hm)
        · exact Or.inl hs
        · exact absurd rfl hb
        · exact Or.inr hm

/-- C9: on a directory, from_directory succeeds and its coordinator owns
a brain exactly when some listed file name case-insensitively carries the
.json extension and has that brain as its base name; all other files are
skipped. -/
theorem from_directory_files_spec (folder_path : String) (names : List String)
    (load : String → Curriculum) :
    ∃ mc, from_directory folder_path (.files names) load = .ok mc
      ∧ ∀ b, (dictLookup mc.brains_to_curricula b).isSome = true
          ↔ ∃ fn ∈ names, strLower (splitext fn).2 = ".json" ∧ (splitext fn).1 = b := by
  refine ⟨init (dirCurricula load names), rfl, ?_⟩
  intro b
  simp only [init]
  rw [initLoop_isSome]
  rw [show (dirCurricula load names).map Prod.fst =
    (names.foldl (dirStep load) []).map Prod.fst from rfl]
  rw [← dictMem_iff_mem_keys]
  simp only [dictMem]
  rw [dirStep_foldl_isSome]
  simp [dictLookup]

end MetaCurr
